import Mathlib

/-!
Verification of the amethyst renderer encoding core (`src/amethyst_renderer/src/encoding/`).

This file shallowly embeds the data model and operations of the encoding engine:
property descriptors and layouts (`renderable.rs`, `properties.rs`), the strided
buffer writer (`buffer.rs`), the encoder-matching registry (`storage.rs`,
`dyn_encoder.rs`), the batch-clustering and instance-write passes of
`PipelineEncodingSystem::run` (`renderable.rs`), the scheduler accessor
(`renderable.rs`), the buffer-growth helper `ensure_buffer`, and the layered
bitset combinator (`bitset.rs`).  Machine integers are modelled as `Nat` with
an explicit `% 2^w` wherever the source's width can overflow — in particular
the `u16` batch-id counter `next_batch_id` wraps modulo `2^16`; other sizes and
indices stay far below their widths in every modelled path, and the embeddings
keep the source's exact branch structure.  Byte buffers are `List Nat`, and
fallible constructors (`assert!` in the source) are `Option`.
-/

namespace AmethystEncoding

/-! ### Property descriptors (`properties.rs`) -/

/-- The `ShaderInput` enum from `properties.rs`: all supported uniform or attribute
types, generated by the `define_shader_inputs!` macro. -/
inductive ShaderInput where
  | EncVec4
  | EncVec2
  | EncMat4x4
  | EncVec4i
  | EncVec2i
  | EncMat4x4i
  | EncVec4u
  | EncVec2u
  | EncMat4x4u
  | EncTexture
deriving DecidableEq, Repr

/-- Modelled from the spec: `ShaderInput::ubo_size` is `unimplemented!()` in
`properties.rs` (its commented-out body dispatches to each representation's
byte size).  The spec fixes the sizes: Vec2 = 2 floats = 8 bytes, Vec4 = 16,
Mat4 = 64, the integer variants likewise, and 0 for descriptor kinds such as
textures. -/
def ShaderInput.ubo_size : ShaderInput → Nat
  | .EncVec4 => 16
  | .EncVec2 => 8
  | .EncMat4x4 => 64
  | .EncVec4i => 16
  | .EncVec2i => 8
  | .EncMat4x4i => 64
  | .EncVec4u => 16
  | .EncVec2u => 8
  | .EncMat4x4u => 64
  | .EncTexture => 0

/-- The `EncodedProp` from `properties.rs`: a runtime representation for a unique
encodable shader input property, `(ShaderInput, &'static str)`. -/
abbrev EncodedProp := ShaderInput × String

/-- The `BufferLayoutProp` from `renderable.rs`: a single shader property at a
specific buffer offset. -/
structure BufferLayoutProp where
  prop : EncodedProp
  absolute_offset : Nat
deriving DecidableEq, Repr

/-- The `BufferLayout` from `renderable.rs`: a set of shader properties at specific
offsets plus the padded stride of one element block. -/
structure BufferLayout where
  props : List BufferLayoutProp
  padded_size : Nat
deriving DecidableEq, Repr

/-- The `OpEncode` from `encoder/encoder.rs`: pairs an entity with the destination
slot an encoder must write for it. -/
structure OpEncode where
  entity_id : Nat
  write_index : Nat
deriving DecidableEq, Repr

/-! ### `ensure_buffer` (`renderable.rs:741`)

The buffer is modelled by its size only (`Buffer::size()` is all the function
inspects); the allocation `factory.create_buffer(1, min_size + padding, _)`
produces a buffer of size `min_size + padding`.  The result pairs the returned
`bool` with the state of the `Option<Buffer>` after the call. -/

/-- The `ensure_buffer(factory, buffer, min_size, padding)`:
mirrors `if buffer.as_ref().filter(|b| b.size() < min_size).is_none() {
replace(create_buffer(1, min_size + padding)); true } else { false }`. -/
def ensure_buffer (buffer : Option Nat) (min_size padding : Nat) : Bool × Option Nat :=
  if (buffer.filter (fun b => b < min_size)).isNone then
    (true, some (min_size + padding))
  else
    (false, buffer)

/-! ### Scheduler accessor (`renderable.rs:356`)

`DynEncoder` handles are modelled by the data the claims inspect: the property
list they produce (`T::get_props()` collected) and their declared read/write
resource ids (`ResourceId` modelled as `Nat`). -/

/-- A type-erased encoder handle (`dyn_encoder.rs`): its produced properties
and declared resource reads/writes. -/
structure DynEncoderModel where
  props : List EncodedProp
  reads : List Nat
  writes : List Nat
deriving DecidableEq, Repr

/-- The `BunchOfEncoders` from `dyn_encoder.rs`: dynamic encoders separated by
kind.  The `instance` field is named `inst` (`instance` is a Lean keyword). -/
structure BunchOfEncoders where
  globals : List DynEncoderModel
  batch : List DynEncoderModel
  inst : List DynEncoderModel
deriving DecidableEq, Repr

/-- The `chain_map_encoders!` macro: `empty().chain(globals.flat_map(f))
.chain(batch.flat_map(f)).chain(instance.flat_map(f))`. -/
def chain_map_encoders (bunch : BunchOfEncoders) (f : DynEncoderModel → List Nat) : List Nat :=
  (bunch.globals.flatMap f) ++ (bunch.batch.flatMap f) ++ (bunch.inst.flatMap f)

/-- The `Accessor::reads` for `EncodersDataAccessor` (`renderable.rs:360`):
`chain_map_encoders!(&self.encoders, |e| e.reads()).chain(self.inner.reads())`. -/
def accessor_reads (bunch : BunchOfEncoders) (inner_reads : List Nat) : List Nat :=
  chain_map_encoders bunch (fun e => e.reads) ++ inner_reads

/-- The `Accessor::writes` for `EncodersDataAccessor` (`renderable.rs:365`): the
source body is `chain_map_encoders!(&self.encoders, |e| e.reads())
.chain(self.inner.reads())` — it consults the encoders' `reads()` and the inner
accessor's `reads()`; `inner_writes` is accepted (the inner accessor has a
write set) but never consulted, exactly as in the source. -/
def accessor_writes (bunch : BunchOfEncoders) (inner_reads : List Nat)
    (_inner_writes : List Nat) : List Nat :=
  chain_map_encoders bunch (fun e => e.reads) ++ inner_reads

/-! ### Layered bitsets (`bitset.rs`)

A `hibitset::BitSet` keeps four layers of 64-bit words: bit `i % 64` of layer-0
word `i / 64` records id `i`; each higher-layer bit records that some bit is
set in the corresponding word one layer below (`layer1` word `i / 2^12`, bit
`(i / 64) % 64`, and so on; `layer3` is a single word).  Words are modelled as
`Nat` with `Nat.testBit`/`&&&`.  `VecBitSet` combines a list of bitsets with
the fold-based layer functions of `bitset.rs`. -/

/-- The four layers of one `hibitset::BitSet` (word lists; absent words are 0). -/
structure LayeredBitSet where
  layer3 : Nat
  layer2 : List Nat
  layer1 : List Nat
  layer0 : List Nat
deriving DecidableEq, Repr

/-- The `BitSetLike::layer2` word lookup of a plain bitset. -/
def LayeredBitSet.layer2At (s : LayeredBitSet) (id : Nat) : Nat := s.layer2.getD id 0

/-- The `BitSetLike::layer1` word lookup of a plain bitset. -/
def LayeredBitSet.layer1At (s : LayeredBitSet) (id : Nat) : Nat := s.layer1.getD id 0

/-- The `BitSetLike::layer0` word lookup of a plain bitset. -/
def LayeredBitSet.layer0At (s : LayeredBitSet) (id : Nat) : Nat := s.layer0.getD id 0

/-- The `BitSetLike::contains` of a plain bitset: bit `i % 64` of layer-0 word
`i / 64`. -/
def LayeredBitSet.containsId (s : LayeredBitSet) (i : Nat) : Bool :=
  (s.layer0At (i / 64)).testBit (i % 64)

/-- The `VecBitSet::layer3` (`bitset.rs:8`): `self.0.iter().fold(0, |x, s| x & s.layer3())`. -/
def vecLayer3 (v : List LayeredBitSet) : Nat :=
  v.foldl (fun x s => x &&& s.layer3) 0

/-- The `VecBitSet::layer2` (`bitset.rs:12`): `self.0.iter().fold(0, |x, s| x & s.layer2(id))`. -/
def vecLayer2 (v : List LayeredBitSet) (id : Nat) : Nat :=
  v.foldl (fun x s => x &&& s.layer2At id) 0

/-- The `VecBitSet::layer1` (`bitset.rs:16`). -/
def vecLayer1 (v : List LayeredBitSet) (id : Nat) : Nat :=
  v.foldl (fun x s => x &&& s.layer1At id) 0

/-- The `VecBitSet::layer0` (`bitset.rs:20`). -/
def vecLayer0 (v : List LayeredBitSet) (id : Nat) : Nat :=
  v.foldl (fun x s => x &&& s.layer0At id) 0

/-- The `VecBitSet::contains` (`bitset.rs:24`): `self.0.iter().fold(true, |x, s| x && s.contains(i))`. -/
def vecContains (v : List LayeredBitSet) (i : Nat) : Bool :=
  v.foldl (fun x s => x && s.containsId i) true

/-- Modelled from the spec: the external collaborator `hibitset`'s iterator
(`BitSetLike::iter`) descends the four layers and yields id `i` exactly when
the bit for `i`'s subtree is set at every layer: `layer3` bit `i / 2^18`,
the `layer2` word `i / 2^18` at bit `(i / 2^12) % 64`, the `layer1` word
`i / 2^12` at bit `(i / 2^6) % 64`, and the `layer0` word `i / 2^6` at bit
`i % 64`. -/
def iterVisits (layer3 : Nat) (layer2 layer1 layer0 : Nat → Nat) (i : Nat) : Bool :=
  layer3.testBit (i / 2 ^ 18) &&
  (layer2 (i / 2 ^ 18)).testBit ((i / 2 ^ 12) % 64) &&
  (layer1 (i / 2 ^ 12)).testBit ((i / 2 ^ 6) % 64) &&
  (layer0 (i / 2 ^ 6)).testBit (i % 64)

/-- Iteration over a `VecBitSet` with its layer implementation from `bitset.rs`. -/
def vecIterVisits (v : List LayeredBitSet) (i : Nat) : Bool :=
  iterVisits (vecLayer3 v) (vecLayer2 v) (vecLayer1 v) (vecLayer0 v) i

/-- A concrete `hibitset::BitSet` holding exactly id 0: layer-0 word 0 has bit
0 set, and each summary layer records the nonempty subtree. -/
def singletonZeroBitSet : LayeredBitSet := ⟨1, [1], [1], [1]⟩

/-! ### `try_match_props` (`dyn_encoder.rs:132`, identically `stream_encoder.rs:182`) -/

/-- The `Vec::swap_remove(i)`: replaces the element at `i` with the last element
and pops (on the empty list, where the source would panic, the list is
returned unchanged; all theorems assume `i` in bounds). -/
def swapRemove {α : Type*} (l : List α) (i : Nat) : List α :=
  if h : 0 < l.length then
    (l.set i (l.getLast (List.ne_nil_of_length_pos h))).dropLast
  else l

/-- The `DynEncoder::try_match_props` from the `impl_dyn_encoder!` macro (it is
generic in the property type; the program instantiates it at `EncodedProp`):
`is_match` checks every encoder property occurs in `encoded_props`; on a
match, the first-occurrence indices of the encoder's properties are collected,
sorted, and `swap_remove`d from largest to smallest.  Returns the flag paired
with the (possibly) mutated property list. -/
def try_match_props {α : Type*} [DecidableEq α] (enc_props props : List α) :
    Bool × List α :=
  if enc_props.all (fun p => props.contains p) then
    (true,
      ((enc_props.map (fun p => props.indexOf p)).insertionSort (· ≤ ·)).reverse.foldl
        swapRemove props)
  else
    (false, props)

/-! ### Encoder registry cover matching (`encoder/storage.rs`) -/

/-- The `EncoderStorage::match_group` (storage.rs:61-77): `not_found_props` is
rebuilt from the full layout list, then encoders are tried in registration
order; each successful `try_match_props` pushes the encoder and shrinks the
list in place.  The group yields `none` unless its own remaining list is
emptied. -/
def match_group (layout_props : List BufferLayoutProp)
    (encoders : List DynEncoderModel) : Option (List DynEncoderModel) :=
  let result := encoders.foldl
    (fun (acc : List DynEncoderModel × List EncodedProp) encoder =>
      let m := try_match_props encoder.props acc.2
      if m.1 then (acc.1 ++ [encoder], m.2) else (acc.1, m.2))
    ([], layout_props.map (fun p => p.prop))
  if result.2.length > 0 then none else some result.1

/-- The `EncoderStorage::encoders_for_props` (storage.rs:80-97): each of the three
encoder kinds runs `match_group` against its own copy of the full layout
property list; the result is `some` only when all three groups are `some`. -/
def encoders_for_props (storage : BunchOfEncoders)
    (layout_props : List BufferLayoutProp) : Option BunchOfEncoders :=
  match match_group layout_props storage.globals,
      match_group layout_props storage.batch,
      match_group layout_props storage.inst with
  | some globals, some batch, some inst => some ⟨globals, batch, inst⟩
  | _, _, _ => none

/-- Modelled from the spec: the claimed greedy cover over one **shared**
remaining set — globals, then batch, then instance encoders each shrink the
same list; returns the final remaining set (the layout is servable iff it is
empty).  Used only to exhibit the divergence of `encoders_for_props` from the
specified behaviour. -/
def shared_cover_leftover (storage : BunchOfEncoders)
    (layout_props : List BufferLayoutProp) : List EncodedProp :=
  (storage.globals ++ storage.batch ++ storage.inst).foldl
    (fun remaining encoder => (try_match_props encoder.props remaining).2)
    (layout_props.map (fun p => p.prop))

/-! ### Strided buffer writers (`buffer.rs`)

Byte buffers are `List Nat` (each entry one byte).  The source's
`begin: *mut T` pointer is modelled as the byte offset of the stride's first
element from the start of the buffer. -/

/-- The `BufferStride` (buffer.rs:23-29). -/
structure BufferStride where
  begin : Nat
  stride : Nat
  elem_count : Nat
  contiguous_count : Nat
deriving DecidableEq, Repr

/-- The offset accumulation of `from_sizes` (buffer.rs:47-58): `begin_offset`
starts at 0 and advances by each size. -/
def stridesFromSizes (stride elem_count : Nat) : Nat → List Nat → List BufferStride
  | _, [] => []
  | begin_offset, size :: rest =>
    ⟨begin_offset, stride, elem_count, size⟩ ::
      stridesFromSizes stride elem_count (begin_offset + size) rest

/-- The `BufferStride::from_sizes` (buffer.rs:33-59) over a buffer of `len` bytes:
the `assert!` (`none`) fires unless the summed stride is positive and divides
`len`. -/
def from_sizes (len : Nat) (sizes : List Nat) : Option (List BufferStride) :=
  if sizes.sum > 0 ∧ len % sizes.sum = 0 then
    some (stridesFromSizes sizes.sum (len / sizes.sum) 0 sizes)
  else none

/-- The `BufferStride::from_ones` (buffer.rs:62-85): one 1-element-wide stride per
offset `0..stride`. -/
def from_ones (len stride : Nat) : Option (List BufferStride) :=
  if stride > 0 ∧ len % stride = 0 then
    some ((List.range stride).map fun offset => ⟨offset, stride, len / stride, 1⟩)
  else none

/-- The `BufferStride::from_layout` (buffer.rs:88-118): one stride per layout
property at its `absolute_offset`, `contiguous_count` the property kind's
`ubo_size`.  The only checks are `stride > 0` and divisibility; the source
comments "Let's assume that layout is well-formed and has no overlaps". -/
def from_layout (len : Nat) (layout : BufferLayout) : Option (List BufferStride) :=
  if layout.padded_size > 0 ∧ len % layout.padded_size = 0 then
    some (layout.props.map fun layout_prop =>
      ⟨layout_prop.absolute_offset, layout.padded_size, len / layout.padded_size,
        layout_prop.prop.1.ubo_size⟩)
  else none

/-- Overwrite `data.length` bytes of `buf` starting at byte `pos`
(the `copy_from_slice` into a mutable subslice). -/
def writeBytes (buf : List Nat) (pos : Nat) (data : List Nat) : List Nat :=
  buf.take pos ++ data ++ buf.drop (pos + data.length)

/-- The `BufferStride::get_mut(idx)` (buffer.rs:124-135): the
`contiguous_count`-byte slice at `begin + stride * idx`. -/
def BufferStride.get_mut (s : BufferStride) (buf : List Nat) (idx : Nat) : List Nat :=
  (buf.drop (s.begin + s.stride * idx)).take s.contiguous_count

/-- The `BufferStride::write_at(idx, data)` (buffer.rs:137-142):
`get_mut(idx).copy_from_slice(data)`. -/
def BufferStride.write_at (s : BufferStride) (buf : List Nat) (idx : Nat)
    (data : List Nat) : List Nat :=
  writeBytes buf (s.begin + s.stride * idx) data

/-- The byte positions element `idx` of a stride occupies. -/
def BufferStride.inRange (s : BufferStride) (idx p : Nat) : Prop :=
  s.begin + s.stride * idx ≤ p ∧ p < s.begin + s.stride * idx + s.contiguous_count

instance (s : BufferStride) (idx p : Nat) : Decidable (s.inRange idx p) := by
  unfold BufferStride.inRange
  infer_instance

/-- Layout invariant from the spec (§3): property byte regions
`[offset, offset + size)` within one layout are pairwise disjoint. -/
def LayoutNonOverlap (layout : BufferLayout) : Prop :=
  layout.props.Pairwise (fun a b =>
    a.absolute_offset + a.prop.1.ubo_size ≤ b.absolute_offset ∨
    b.absolute_offset + b.prop.1.ubo_size ≤ a.absolute_offset)

instance (layout : BufferLayout) : Decidable (LayoutNonOverlap layout) := by
  unfold LayoutNonOverlap
  infer_instance

/-- Layout invariant from the spec (§3): `offset + size(property) ≤ stride`. -/
def LayoutFits (layout : BufferLayout) : Prop :=
  ∀ lp ∈ layout.props, lp.absolute_offset + lp.prop.1.ubo_size ≤ layout.padded_size

instance (layout : BufferLayout) : Decidable (LayoutFits layout) := by
  unfold LayoutFits
  infer_instance

/-! ### Batch clustering (`renderable.rs:504-593`)

The batch encoders write, for every entity of a round, `batch_key_size()`
bytes into their stride of the scratch buffer; the `from_sizes` strides lay
the per-encoder keys of one entity side by side, so the `chunks_exact` row of
entity `e` is the concatenation of the encoders' key bytes for `e`.  The
function `key : Nat → List Nat` models that row. -/

/-- The `BATCH_ROUND_SIZE` (renderable.rs:31). -/
def BATCH_ROUND_SIZE : Nat := 1024

/-- The modulus of the `u16` batch-id counter (renderable.rs:534):
`next_batch_id += 1` on a `u16` wraps modulo `2^16` in release builds. -/
def U16_MOD : Nat := 65536

/-- The `BatchInfo` (renderable.rs:420-424). -/
structure BatchInfo where
  count : Nat
  batch_id : Nat
deriving DecidableEq, Repr

/-- The mutable state of the batch-collection phase of
`PipelineEncodingSystem::run` (renderable.rs:519-535): `batches_by_key`
(the `FnvHashMap` modelled as an insertion-ordered association list),
`next_batch_id` (a `u16` in the source, kept here as its `Nat` value, always
below `U16_MOD` because each increment reduces modulo `U16_MOD`), and the
`batch_per_entity` / `encoder_batch_writes` output vectors. -/
structure BatchState where
  batches_by_key : List (List Nat × BatchInfo)
  next_batch_id : Nat
  batch_per_entity : List Nat
  encoder_batch_writes : List OpEncode
deriving DecidableEq, Repr

/-- The `batches_by_key.get(chunk)` on the modelled association list. -/
def lookupKey (m : List (List Nat × BatchInfo)) (key : List Nat) : Option BatchInfo :=
  match m with
  | [] => none
  | kv :: rest => if kv.1 = key then some kv.2 else lookupKey rest key

/-- The `batch.count += 1` through the map's `get_mut`. -/
def bumpCount (m : List (List Nat × BatchInfo)) (key : List Nat) :
    List (List Nat × BatchInfo) :=
  match m with
  | [] => []
  | kv :: rest =>
    if kv.1 = key then (kv.1, ⟨kv.2.count + 1, kv.2.batch_id⟩) :: rest
    else kv :: bumpCount rest key

/-- Processing one entity's key row (renderable.rs:564-587): a map hit pushes
the existing batch id and bumps the count; a miss inserts the key with the
next batch id, pushes that id, and records an `OpEncode` whose `write_index`
is the new id.  `next_batch_id += 1` is a `u16` increment, so it reduces
modulo `U16_MOD` (the release-build wrap; debug builds panic instead at the
same point). -/
def batchStep (key : Nat → List Nat) (st : BatchState) (entity : Nat) : BatchState :=
  match lookupKey st.batches_by_key (key entity) with
  | some info =>
    { st with
      batch_per_entity := st.batch_per_entity ++ [info.batch_id]
      batches_by_key := bumpCount st.batches_by_key (key entity) }
  | none =>
    { batches_by_key := st.batches_by_key ++ [(key entity, ⟨1, st.next_batch_id⟩)]
      next_batch_id := (st.next_batch_id + 1) % U16_MOD
      batch_per_entity := st.batch_per_entity ++ [st.next_batch_id]
      encoder_batch_writes := st.encoder_batch_writes ++ [⟨entity, st.next_batch_id⟩] }

/-- The round loop of the batch-collection phase (renderable.rs:536-588): each
round takes up to `BATCH_ROUND_SIZE` entities from the iterator, has the batch
encoders fill the round's scratch key buffer, and dedups each local row; the
map, the id counter and both output vectors persist across rounds. -/
def batchRounds (key : Nat → List Nat) (st : BatchState) (entities : List Nat) :
    BatchState :=
  if h : entities.isEmpty then st
  else
    batchRounds key ((entities.take BATCH_ROUND_SIZE).foldl (batchStep key) st)
      (entities.drop BATCH_ROUND_SIZE)
termination_by entities.length
decreasing_by
  have hne : entities ≠ [] := by
    intro hnil
    rw [hnil] at h
    simp at h
  have hpos : 0 < entities.length := List.length_pos.mpr hne
  simp only [List.length_drop]
  have h1024 : 0 < BATCH_ROUND_SIZE := by decide
  omega

/-- The whole batch-collection phase over a pipeline's ordered entity set,
starting from the cleared state (renderable.rs:519-523). -/
def collectBatches (key : Nat → List Nat) (entities : List Nat) : BatchState :=
  batchRounds key ⟨[], 0, [], []⟩ entities

/-- The distinct key rows of `rows` in first-occurrence order. -/
def distinctKeys (rows : List (List Nat)) : List (List Nat) :=
  rows.foldl (fun acc k => if k ∈ acc then acc else acc ++ [k]) []

/-- Position of the first occurrence of key row `k` (the list's length when
absent). -/
def idxOfKey (k : List Nat) : List (List Nat) → Nat
  | [] => 0
  | r :: rest => if r = k then 0 else idxOfKey k rest + 1

/-! ### Instance write indices (`renderable.rs:454-482`) -/

/-- The `batch_offsets` computation (renderable.rs:456-468): for each batch id
in order, push the running total, then add that batch's instance count. -/
def computeBatchOffsets (counts : List Nat) : List Nat :=
  (counts.foldl (fun (acc : List Nat × Nat) count => (acc.1 ++ [acc.2], acc.2 + count))
    ([], 0)).1

/-- One step of the `instance_writes` iterator (renderable.rs:470-482): read
the entity's batch counter, bump it, and emit `{entity_id, write_index}`. -/
def instanceWriteStep (acc : List Nat × List OpEncode) (be : Nat × Nat) :
    List Nat × List OpEncode :=
  (acc.1.set be.1 (acc.1.getD be.1 0 + 1), acc.2 ++ [⟨be.2, acc.1.getD be.1 0⟩])

/-- The `PipelineEncodingSystem::instance_writes` (renderable.rs:454-482): compute
`batch_offsets` from the per-batch instance counts, then zip
`batch_per_entity` with the pipeline's entity iteration order, using the
offsets as mutable per-batch next-free counters. -/
def instance_writes (counts batch_per_entity entities : List Nat) : List OpEncode :=
  ((batch_per_entity.zip entities).foldl instanceWriteStep
    (computeBatchOffsets counts, [])).2

/-! ### Property resolution with fallbacks (`properties.rs`) -/

/-- An `EncProperty` (properties.rs:259-277): a shader property declaring a
name and a `fallback()` value of its encoded representation type. -/
structure EncPropertyModel (α : Type*) where
  name : String
  fallback : α

/-- The `EncodingValue::resolve` for a single `ShaderInputType` representation
(properties.rs:250-252): `optional.unwrap_or(fallback)`. -/
def resolveValue {α : Type*} (optional : Option α) (fallback : α) : α :=
  optional.getD fallback

/-- The `EncodingValue::resolve` for a 2-tuple (the `impl_tuple_properties!` macro,
properties.rs:404-406): component-wise resolution. -/
def resolvePairValue {α β : Type*} (optional : Option α × Option β)
    (fallback : α × β) : α × β :=
  (resolveValue optional.1 fallback.1, resolveValue optional.2 fallback.2)

/-- The `EncProperties::resolve` for a single property (properties.rs:296-301):
resolve the optional encoder output against the property's declared
`fallback()`. -/
def resolveProp {α : Type*} (p : EncPropertyModel α) (optional : Option α) : α :=
  resolveValue optional p.fallback

/-- The `EncProperties::resolve` for a composed pair of properties: the macro
composes `fallback()` component-wise and resolves component-wise. -/
def resolveProps2 {α β : Type*} (p1 : EncPropertyModel α) (p2 : EncPropertyModel β)
    (optional : Option α × Option β) : α × β :=
  resolvePairValue optional (p1.fallback, p2.fallback)

end AmethystEncoding

namespace AmethystEncoding

/-! ## Theorems -/

/-- C1: `ensure_buffer` (renderable.rs:741-757) evaluated at the failing
input: a present buffer of size 0 with `min_size = 16`, `padding = 8`.  The
claim requires the call to allocate a fresh buffer of size 24 and return
`true`, leaving a buffer of size at least 16; the code's test
`buffer.filter(|b| b.size() < min_size).is_none()` is inverted, so it keeps
the undersized buffer and returns `false` (and, dually, reallocates whenever
the existing buffer is already large enough: `ensure_buffer (some 100) 16 8`
yields `(true, some 24)`). -/
theorem c1_ensure_buffer_keeps_undersized :
    ensure_buffer (some 0) 16 8 = (false, some 0) ∧
    ensure_buffer (some 100) 16 8 = (true, some 24) ∧
    ensure_buffer none 16 8 = (true, some 24) := by
  decide

/-- C8: the scheduler accessor of a pipeline encoding system
(renderable.rs:356-370) evaluated on a bunch with one globals encoder that
reads resource 1 and writes resource 2, with inner accessor reads `[3]` and
writes `[4]`.  The claim says `writes()` is the union of the encoders'
declared writes plus the inner accessor's writes, i.e. `[2, 4]`; the code's
`writes()` body chains `e.reads()` and `inner.reads()`, producing `[1, 3]`
(while `reads()` itself is as claimed). -/
theorem c8_accessor_writes_returns_reads :
    accessor_writes ⟨[⟨[], [1], [2]⟩], [], []⟩ [3] [4] = [1, 3] ∧
    accessor_reads ⟨[⟨[], [1], [2]⟩], [], []⟩ [3] = [1, 3] := by
  decide

/-! ### Helper lemmas about `swapRemove` -/

theorem swapRemove_eq {α : Type*} (l : List α) (i : Nat) (h : 0 < l.length) :
    swapRemove l i = (l.set i (l.getLast (List.ne_nil_of_length_pos h))).dropLast := by
  rw [swapRemove, dif_pos h]

theorem swapRemove_length {α : Type*} (l : List α) (i : Nat) (h : i < l.length) :
    (swapRemove l i).length = l.length - 1 := by
  rw [swapRemove_eq l i (Nat.lt_of_le_of_lt (Nat.zero_le _) h)]
  simp

theorem swapRemove_getElem?_lt {α : Type*} (l : List α) (i : Nat) (h : i < l.length)
    (j : Nat) (hj : j < i) : (swapRemove l i)[j]? = l[j]? := by
  rw [swapRemove_eq l i (Nat.lt_of_le_of_lt (Nat.zero_le _) h), List.dropLast_eq_take]
  rw [List.getElem?_take_of_lt (by simp; omega), List.getElem?_set_ne (by omega)]

theorem swapRemove_cons_perm {α : Type*} (l : List α) (i : Nat) (h : i < l.length) :
    (l[i] :: swapRemove l i).Perm l := by
  have hpos : 0 < l.length := Nat.lt_of_le_of_lt (Nat.zero_le _) h
  have hne : l ≠ [] := List.ne_nil_of_length_pos hpos
  have hsplit : l = l.take i ++ l[i] :: l.drop (i + 1) := by
    conv_lhs => rw [← List.take_append_drop i l]
    rw [List.getElem_cons_drop l i h]
  have hDC : ∀ (b' : α), b' = l.getLast hne →
      (List.dropLast (b' :: l.drop (i + 1))).Perm (l.drop (i + 1)) := by
    intro b' hb'
    rcases hd : l.drop (i + 1) with _ | ⟨c, cs⟩
    · simp
    · have hl2 : l = (l.take i ++ [l[i]]) ++ (c :: cs) := by
        conv_lhs => rw [hsplit, hd]
        rw [← List.append_cons]
      have hlast : b' = (c :: cs).getLast (List.cons_ne_nil c cs) := by
        rw [hb', List.getLast_congr hne (by simp) hl2]
        exact List.getLast_append_of_ne_nil (List.cons_ne_nil c cs)
      rw [List.dropLast_cons₂, hlast]
      have h2 : List.dropLast (c :: cs) ++ [(c :: cs).getLast (List.cons_ne_nil c cs)] =
          c :: cs := List.dropLast_concat_getLast _
      have h3 : ((c :: cs).getLast (List.cons_ne_nil c cs) :: List.dropLast (c :: cs)).Perm
          (List.dropLast (c :: cs) ++ [(c :: cs).getLast (List.cons_ne_nil c cs)]) :=
        (List.perm_append_singleton _ _).symm
      rw [h2] at h3
      exact h3
  rw [swapRemove_eq l i hpos]
  rw [List.set_eq_take_append_cons_drop, if_pos h, List.dropLast_append_cons]
  conv_rhs => rw [hsplit]
  refine List.Perm.trans List.perm_middle.symm (List.Perm.append_left _ ?_)
  exact (hDC _ rfl).cons _

/-- Folding `swapRemove` over strictly descending in-bounds indices removes
exactly the elements at those indices: the result together with the removed
elements is a permutation of the original list. -/
theorem foldl_swapRemove_perm {α : Type*} (d : α) :
    ∀ (idxs : List Nat) (l : List α), idxs.Pairwise (· > ·) → (∀ i ∈ idxs, i < l.length) →
      ((idxs.foldl swapRemove l) ++ idxs.map (fun i => l.getD i d)).Perm l := by
  intro idxs
  induction idxs with
  | nil => simp
  | cons i idxs ih =>
    intro l hpw hlt
    have hi : i < l.length := hlt i (List.mem_cons_self i idxs)
    have hgt : ∀ j ∈ idxs, j < i := fun j hj => (List.pairwise_cons.mp hpw).1 j hj
    have hlt' : ∀ j ∈ idxs, j < (swapRemove l i).length := by
      intro j hj
      rw [swapRemove_length l i hi]
      have := hgt j hj
      omega
    have hmapeq : idxs.map (fun j => (swapRemove l i).getD j d) =
        idxs.map (fun j => l.getD j d) := by
      apply List.map_congr_left
      intro j hj
      rw [List.getD_eq_getElem?_getD, List.getD_eq_getElem?_getD,
        swapRemove_getElem?_lt l i hi j (hgt j hj)]
    have ihperm := ih (swapRemove l i) (List.pairwise_cons.mp hpw).2 hlt'
    rw [hmapeq] at ihperm
    have hgetD : l.getD i d = l[i] := by
      rw [List.getD_eq_getElem?_getD, List.getElem?_eq_getElem hi]
      rfl
    have step1 : (((i :: idxs).foldl swapRemove l) ++
        (i :: idxs).map (fun j => l.getD j d)).Perm
        (l[i] :: ((idxs.foldl swapRemove (swapRemove l i)) ++
          idxs.map (fun j => l.getD j d))) := by
      simp only [List.foldl_cons, List.map_cons, hgetD]
      exact List.perm_middle
    exact step1.trans ((ihperm.cons _).trans (swapRemove_cons_perm l i hi))

/-- C6: `try_match_props` (dyn_encoder.rs:132-161, identically
stream_encoder.rs:182-212).  On duplicate-free inputs (the spec forbids
duplicates within property sets and layout lists): the returned flag is true
iff every encoder property occurs in `props`; on success exactly the encoder's
properties are removed (the result is a permutation of the list difference);
on failure the list is returned unchanged. -/
theorem c6_try_match_props {α : Type*} [DecidableEq α] (enc_props props : List α)
    (henc : enc_props.Nodup) (_hprops : props.Nodup) :
    ((try_match_props enc_props props).1 = true ↔ ∀ p ∈ enc_props, p ∈ props) ∧
    ((try_match_props enc_props props).1 = true →
      (try_match_props enc_props props).2.Perm (props.diff enc_props)) ∧
    ((try_match_props enc_props props).1 = false →
      (try_match_props enc_props props).2 = props) := by
  have hfst : (try_match_props enc_props props).1 =
      enc_props.all (fun p => props.contains p) := by
    rw [try_match_props]
    split <;> simp_all
  have hall : (enc_props.all (fun p => props.contains p) = true) ↔
      ∀ p ∈ enc_props, p ∈ props := by
    simp [List.all_eq_true, List.contains, List.elem_eq_mem]
  refine ⟨by rw [hfst]; exact hall, ?_, ?_⟩
  · intro htrue
    have hsub : ∀ p ∈ enc_props, p ∈ props := hall.mp (hfst ▸ htrue)
    have hcond : enc_props.all (fun p => props.contains p) = true := hall.mpr hsub
    have hsnd : (try_match_props enc_props props).2 =
        ((enc_props.map (fun p => props.indexOf p)).insertionSort (· ≤ ·)).reverse.foldl
          swapRemove props := by
      rw [try_match_props]
      split
      · rfl
      · exact absurd hcond (by assumption)
    rcases List.eq_nil_or_concat enc_props with hnil | ⟨_, d0, _⟩
    · subst hnil
      rw [hsnd]
      simp [List.insertionSort]
    set indices := enc_props.map (fun p => props.indexOf p) with hindices
    set sorted := indices.insertionSort (· ≤ ·) with hsorted
    have hnodup_idx : indices.Nodup := by
      refine List.Nodup.map_on ?_ henc
      intro x hx y hy hxy
      exact (List.indexOf_inj (hsub x hx) (hsub y hy)).mp hxy
    have hperm_sort : sorted.Perm indices := List.perm_insertionSort _ _
    have hnodup_sorted : sorted.Nodup := (hperm_sort.nodup_iff).mpr hnodup_idx
    have hsorted_le : sorted.Pairwise (· ≤ ·) := List.sorted_insertionSort _ _
    have hpw : sorted.reverse.Pairwise (· > ·) := by
      rw [List.pairwise_reverse]
      exact (hsorted_le.and hnodup_sorted).imp
        (fun h => Nat.lt_of_le_of_ne h.1 h.2)
    have hbound : ∀ i ∈ sorted.reverse, i < props.length := by
      intro i hi
      rw [List.mem_reverse] at hi
      have : i ∈ indices := hperm_sort.mem_iff.mp hi
      obtain ⟨p, hp, rfl⟩ := List.mem_map.mp this
      exact List.indexOf_lt_length.mpr (hsub p hp)
    have hfold := foldl_swapRemove_perm d0 sorted.reverse props hpw hbound
    have hgetDidx : ∀ p ∈ enc_props, props.getD (props.indexOf p) d0 = p := by
      intro p hp
      have hlt : props.indexOf p < props.length := List.indexOf_lt_length.mpr (hsub p hp)
      rw [List.getD_eq_getElem?_getD, List.getElem?_eq_getElem hlt]
      exact List.getElem_indexOf hlt
    have hremoved : (sorted.reverse.map (fun i => props.getD i d0)).Perm enc_props := by
      have h1 : (sorted.reverse.map (fun i => props.getD i d0)).Perm
          (indices.map (fun i => props.getD i d0)) :=
        ((sorted.reverse_perm).trans hperm_sort).map _
      have h2 : indices.map (fun i => props.getD i d0) = enc_props := by
        rw [hindices, List.map_map]
        have h3 : enc_props.map ((fun i => props.getD i d0) ∘ fun p => props.indexOf p)
            = enc_props.map id := List.map_congr_left (fun p hp => hgetDidx p hp)
        rw [h3, List.map_id]
      exact h1.trans (h2 ▸ List.Perm.refl _)
    have hR : ((sorted.reverse.foldl swapRemove props) ++ enc_props).Perm props :=
      ((List.Perm.append_left _ hremoved).symm).trans hfold
    have hmult : ((sorted.reverse.foldl swapRemove props : List α) : Multiset α)
        + (enc_props : Multiset α) = (props : Multiset α) := by
      have hcoe := Multiset.coe_eq_coe.mpr hR
      rwa [← Multiset.coe_add] at hcoe
    have hdiff : ((sorted.reverse.foldl swapRemove props : List α) : Multiset α)
        = ((props.diff enc_props : List α) : Multiset α) := by
      rw [← Multiset.coe_sub]
      exact eq_tsub_of_add_eq hmult
    rw [hsnd]
    exact Multiset.coe_eq_coe.mp hdiff
  · intro hfalse
    have hcond : enc_props.all (fun p => props.contains p) = false :=
      hfst.symm.trans hfalse
    rw [try_match_props]
    split
    · rename_i hc
      rw [hcond] at hc
      exact absurd hc (by simp)
    · rfl

/-- Witness for C6 at a concrete input: a one-property encoder matched against
a two-property remaining list. -/
theorem c6_witness :
    ([((ShaderInput.EncVec4, "tint") : EncodedProp)].Nodup ∧
      [((ShaderInput.EncVec4, "tint") : EncodedProp),
        ((ShaderInput.EncVec2, "pos") : EncodedProp)].Nodup) ∧
    ((try_match_props [(ShaderInput.EncVec4, "tint")]
        [(ShaderInput.EncVec4, "tint"), (ShaderInput.EncVec2, "pos")]).1 = true ↔
      ∀ p ∈ [((ShaderInput.EncVec4, "tint") : EncodedProp)],
        p ∈ [((ShaderInput.EncVec4, "tint") : EncodedProp),
          ((ShaderInput.EncVec2, "pos") : EncodedProp)]) ∧
    ((try_match_props [(ShaderInput.EncVec4, "tint")]
        [(ShaderInput.EncVec4, "tint"), (ShaderInput.EncVec2, "pos")]).1 = true →
      (try_match_props [(ShaderInput.EncVec4, "tint")]
        [(ShaderInput.EncVec4, "tint"), (ShaderInput.EncVec2, "pos")]).2.Perm
        ([((ShaderInput.EncVec4, "tint") : EncodedProp),
          ((ShaderInput.EncVec2, "pos") : EncodedProp)].diff
          [(ShaderInput.EncVec4, "tint")])) ∧
    ((try_match_props [(ShaderInput.EncVec4, "tint")]
        [(ShaderInput.EncVec4, "tint"), (ShaderInput.EncVec2, "pos")]).1 = false →
      (try_match_props [(ShaderInput.EncVec4, "tint")]
        [(ShaderInput.EncVec4, "tint"), (ShaderInput.EncVec2, "pos")]).2 =
        [(ShaderInput.EncVec4, "tint"), (ShaderInput.EncVec2, "pos")]) :=
  ⟨⟨by decide, by decide⟩,
    c6_try_match_props [(ShaderInput.EncVec4, "tint")]
      [(ShaderInput.EncVec4, "tint"), (ShaderInput.EncVec2, "pos")]
      (by decide) (by decide)⟩

/-- C2: `encoders_for_props` (storage.rs:61-97) evaluated on a layout with a
globals-only property `view` and an instance-only property `model`, with one
registered globals encoder producing `view` and one instance encoder
producing `model`.  Under the claimed single shared remaining set this layout
is servable (the shared-set leftover, modelled from the spec as
`shared_cover_leftover`, is empty), but the code rebuilds `not_found_props`
from the full layout for each kind separately and demands each of the three
groups empty it alone, so it returns `none` and the pipeline is skipped. -/
theorem c2_encoders_for_props_no_shared_set :
    encoders_for_props
      ⟨[⟨[(ShaderInput.EncMat4x4, "view")], [], []⟩], [],
        [⟨[(ShaderInput.EncMat4x4, "model")], [], []⟩]⟩
      [⟨(ShaderInput.EncMat4x4, "view"), 0⟩, ⟨(ShaderInput.EncMat4x4, "model"), 64⟩]
      = none ∧
    shared_cover_leftover
      ⟨[⟨[(ShaderInput.EncMat4x4, "view")], [], []⟩], [],
        [⟨[(ShaderInput.EncMat4x4, "model")], [], []⟩]⟩
      [⟨(ShaderInput.EncMat4x4, "view"), 0⟩, ⟨(ShaderInput.EncMat4x4, "model"), 64⟩]
      = [] := by
  decide

/-- C9: resolving an encoder's optional output never fails and never errors:
a `none` component (absent source component) resolves to exactly the declared
`fallback()` of that property, a `some v` component resolves to `v`, and for
composed tuples this holds component-wise
(properties.rs:244-253 and 296-301, tuple case properties.rs:397-407). -/
theorem c9_resolve_fallback {α β : Type*} (p1 : EncPropertyModel α)
    (p2 : EncPropertyModel β) (o1 : Option α) (o2 : Option β) :
    (resolveProp p1 none = p1.fallback) ∧
    (∀ v, resolveProp p1 (some v) = v) ∧
    (resolveProps2 p1 p2 (o1, o2) = (resolveProp p1 o1, resolveProp p2 o2)) ∧
    (o1 = none → (resolveProps2 p1 p2 (o1, o2)).1 = p1.fallback) ∧
    (∀ v, o1 = some v → (resolveProps2 p1 p2 (o1, o2)).1 = v) ∧
    (o2 = none → (resolveProps2 p1 p2 (o1, o2)).2 = p2.fallback) ∧
    (∀ v, o2 = some v → (resolveProps2 p1 p2 (o1, o2)).2 = v) := by
  refine ⟨rfl, fun v => rfl, rfl, ?_, ?_, ?_, ?_⟩
  · rintro rfl; rfl
  · rintro v rfl; rfl
  · rintro rfl; rfl
  · rintro v rfl; rfl

/-- Witness for C9 at a concrete input: a `Rgba` tint property with fallback
`(1, 1, 1, 1)` whose source component is absent, composed with a position
property that is present. -/
theorem c9_witness :
    ((none : Option (List Nat)) = none →
      (resolveProps2 ⟨"tint", [1, 1, 1, 1]⟩ ⟨"pos", [0, 0]⟩
        ((none : Option (List Nat)), some [5, 6])).1 = [1, 1, 1, 1]) ∧
    (resolveProps2 ⟨"tint", [1, 1, 1, 1]⟩ ⟨"pos", [0, 0]⟩
        ((none : Option (List Nat)), some [5, 6])).1 = [1, 1, 1, 1] ∧
    (resolveProps2 ⟨"tint", [1, 1, 1, 1]⟩ ⟨"pos", [0, 0]⟩
        ((none : Option (List Nat)), some [5, 6])).2 = [5, 6] :=
  ⟨(c9_resolve_fallback ⟨"tint", [1, 1, 1, 1]⟩ ⟨"pos", [0, 0]⟩ none (some [5, 6])).2.2.2.1,
    (c9_resolve_fallback ⟨"tint", [1, 1, 1, 1]⟩ ⟨"pos", [0, 0]⟩ none
      (some [5, 6])).2.2.2.1 rfl,
    (c9_resolve_fallback ⟨"tint", [1, 1, 1, 1]⟩ ⟨"pos", [0, 0]⟩ none
      (some [5, 6])).2.2.2.2.2.2 [5, 6] rfl⟩

/-! ### Helper lemmas about `writeBytes` and strides -/

theorem writeBytes_length (buf data : List Nat) (pos : Nat)
    (h : pos + data.length ≤ buf.length) :
    (writeBytes buf pos data).length = buf.length := by
  simp [writeBytes]
  omega

theorem writeBytes_getElem?_inside (buf data : List Nat) (pos j : Nat)
    (hpos : pos + data.length ≤ buf.length) (hj : j < data.length) :
    (writeBytes buf pos data)[pos + j]? = data[j]? := by
  have h1 : (buf.take pos).length = pos := by
    rw [List.length_take]
    omega
  rw [writeBytes]
  rw [List.getElem?_append_left (by simp only [List.length_append, h1]; omega)]
  rw [List.getElem?_append_right (by rw [h1]; omega), h1]
  have h2 : pos + j - pos = j := by omega
  rw [h2]

theorem writeBytes_getElem?_outside (buf data : List Nat) (pos p : Nat)
    (hpos : pos + data.length ≤ buf.length)
    (hp : p < pos ∨ pos + data.length ≤ p) :
    (writeBytes buf pos data)[p]? = buf[p]? := by
  have h1 : (buf.take pos).length = pos := by
    rw [List.length_take]
    omega
  rcases hp with hp | hp
  · rw [writeBytes]
    rw [List.getElem?_append_left (by simp only [List.length_append, h1]; omega)]
    rw [List.getElem?_append_left (by rw [h1]; omega)]
    exact List.getElem?_take_of_lt hp
  · rw [writeBytes]
    have h2 : (buf.take pos ++ data).length = pos + data.length := by
      rw [List.length_append, h1]
    rw [List.getElem?_append_right (by rw [h2]; omega), h2, List.getElem?_drop]
    have h3 : pos + data.length + (p - (pos + data.length)) = p := by omega
    rw [h3]

theorem get_mut_writeBytes (buf data : List Nat) (pos s : Nat)
    (hlen : data.length = s) (hpos : pos + s ≤ buf.length) :
    ((writeBytes buf pos data).drop pos).take s = data := by
  apply List.ext_getElem?
  intro j
  rw [List.getElem?_take]
  split
  · rw [List.getElem?_drop]
    exact writeBytes_getElem?_inside buf data pos j (by omega) (by omega)
  · rw [eq_comm, List.getElem?_eq_none]
    omega

theorem row_decomp_unique (S i r i' r' : Nat) (hr : r < S) (hr' : r' < S)
    (h : S * i + r = S * i' + r') : i = i' ∧ r = r' := by
  have hq : (S * i + r) / S = i := by
    rw [Nat.mul_add_div (by omega)]
    simp [Nat.div_eq_of_lt hr]
  have hq' : (S * i' + r') / S = i' := by
    rw [Nat.mul_add_div (by omega)]
    simp [Nat.div_eq_of_lt hr']
  have hii : i = i' := by rw [← hq, ← hq', h]
  subst hii
  constructor
  · rfl
  · omega

/-- Two within-row regions `[o, o + s)` and `[o', o' + s')` that both fit the
stride and are disjoint give disjoint strided write ranges at any indices. -/
theorem write_ranges_disjoint (S o s o' s' i i' p : Nat)
    (hfit1 : o + s ≤ S) (hfit2 : o' + s' ≤ S) (hdisj : o + s ≤ o' ∨ o' + s' ≤ o)
    (h1 : o + S * i ≤ p) (h2 : p < o + S * i + s)
    (h3 : o' + S * i' ≤ p) (h4 : p < o' + S * i' + s') : False := by
  have hjs : p - (o + S * i) < s := by omega
  have hjs' : p - (o' + S * i') < s' := by omega
  have heq : S * i + (o + (p - (o + S * i))) = S * i' + (o' + (p - (o' + S * i'))) := by
    omega
  obtain ⟨hii, hrr⟩ := row_decomp_unique S i _ i' _ (by omega) (by omega) heq
  subst hii
  omega

theorem stridesFromSizes_length (S n : Nat) : ∀ (off : Nat) (sizes : List Nat),
    (stridesFromSizes S n off sizes).length = sizes.length
  | _, [] => rfl
  | off, size :: rest => by
    simp [stridesFromSizes, stridesFromSizes_length S n (off + size) rest]

theorem stridesFromSizes_elem_count (S n : Nat) : ∀ (off : Nat) (sizes : List Nat),
    ∀ s ∈ stridesFromSizes S n off sizes, s.elem_count = n
  | _, [], _, hs => by simp [stridesFromSizes] at hs
  | off, size :: rest, s, hs => by
    rw [stridesFromSizes] at hs
    rcases List.mem_cons.mp hs with h | h
    · rw [h]
    · exact stridesFromSizes_elem_count S n (off + size) rest s h

theorem stridesFromSizes_getElem? (S n : Nat) : ∀ (off : Nat) (sizes : List Nat) (k : Nat),
    (stridesFromSizes S n off sizes)[k]? =
      (sizes[k]?).map (fun sz => ⟨off + (sizes.take k).sum, S, n, sz⟩)
  | _, [], k => rfl
  | off, size :: rest, 0 => by simp [stridesFromSizes]
  | off, size :: rest, Nat.succ k => by
    simp only [stridesFromSizes, List.getElem?_cons_succ, List.take_succ_cons,
      List.sum_cons]
    rw [stridesFromSizes_getElem? S n (off + size) rest k]
    congr 1
    funext sz
    have harith : off + size + (rest.take k).sum = off + (size + (rest.take k).sum) := by
      omega
    rw [harith]

theorem sum_take_le (sizes : List Nat) (k : Nat) : (sizes.take k).sum ≤ sizes.sum := by
  have h : (sizes.take k).sum + (sizes.drop k).sum = sizes.sum := by
    rw [← List.sum_append, List.take_append_drop]
  omega

theorem sum_take_mono (sizes : List Nat) {m n : Nat} (h : m ≤ n) :
    (sizes.take m).sum ≤ (sizes.take n).sum := by
  have h2 : (sizes.take n).take m = sizes.take m := by
    rw [List.take_take, Nat.min_eq_left h]
  rw [← h2]
  exact sum_take_le _ _

theorem sum_take_succ (sizes : List Nat) (k : Nat) (hk : k < sizes.length) :
    (sizes.take (k + 1)).sum = (sizes.take k).sum + sizes[k] := by
  rw [List.take_succ, List.sum_append, List.getElem?_eq_getElem hk]
  simp

/-- C5: strided writes (buffer.rs:88-149, BufferWriter buffer.rs:170-176).
For the strides of one `from_layout` call over buffer `B` for a layout whose
property regions are disjoint and fit the stride: an in-bounds
`write_at i data` with `data.length` the stride's element size stores exactly
those bytes at positions `begin + stride·i .. begin + stride·i + size`,
leaves every other byte of `B` unchanged, and a subsequent `get_mut i` reads
the written bytes back; moreover the write ranges of distinct strides of one
`from_layout` call — and likewise of one `from_sizes` call — are pairwise
disjoint. -/
theorem c5_stride_roundtrip (B : List Nat) (layout : BufferLayout)
    (strides : List BufferStride)
    (hfl : from_layout B.length layout = some strides)
    (hwf : LayoutNonOverlap layout) (hfit : LayoutFits layout) :
    (∀ (k : Nat) (hk : k < strides.length) (i : Nat) (data : List Nat),
      i < strides[k].elem_count →
      data.length = strides[k].contiguous_count →
      ((∀ j, j < data.length →
          (strides[k].write_at B i data)[strides[k].begin + strides[k].stride * i + j]?
            = data[j]?) ∧
        (∀ p, ¬ strides[k].inRange i p →
          (strides[k].write_at B i data)[p]? = B[p]?) ∧
        strides[k].get_mut (strides[k].write_at B i data) i = data)) ∧
    (∀ (k k' : Nat) (hk : k < strides.length) (hk' : k' < strides.length), k ≠ k' →
      ∀ (i i' p : Nat), ¬ (strides[k].inRange i p ∧ strides[k'].inRange i' p)) ∧
    (∀ (len : Nat) (sizes : List Nat) (strides2 : List BufferStride),
      from_sizes len sizes = some strides2 →
      ∀ (k k' : Nat) (hk : k < strides2.length) (hk' : k' < strides2.length), k ≠ k' →
      ∀ (i i' p : Nat), ¬ (strides2[k].inRange i p ∧ strides2[k'].inRange i' p)) := by
  rw [from_layout] at hfl
  split at hfl
  case isFalse => cases hfl
  case isTrue hcond =>
  injection hfl with hfl
  subst hfl
  obtain ⟨hS, hmod⟩ := hcond
  have hdvd : layout.padded_size ∣ B.length := Nat.dvd_of_mod_eq_zero hmod
  have hBlen : layout.padded_size * (B.length / layout.padded_size) = B.length :=
    Nat.mul_div_cancel' hdvd
  refine ⟨?_, ?_, ?_⟩
  · intro k hk i data hi hdata
    have hk2 : k < layout.props.length := by simpa using hk
    simp only [List.getElem_map] at hi hdata ⊢
    simp only [BufferStride.write_at, BufferStride.get_mut, BufferStride.inRange] at hi hdata ⊢
    have hfitk := hfit (layout.props[k]) (List.getElem_mem hk2)
    have hmulsucc : layout.padded_size * i + layout.padded_size
        = layout.padded_size * (i + 1) := (Nat.mul_succ _ _).symm
    have hmulle : layout.padded_size * (i + 1)
        ≤ layout.padded_size * (B.length / layout.padded_size) :=
      Nat.mul_le_mul_left _ (Nat.succ_le_of_lt hi)
    have hpos : (layout.props[k]).absolute_offset + layout.padded_size * i
        + data.length ≤ B.length := by omega
    refine ⟨?_, ?_, ?_⟩
    · intro j hj
      exact writeBytes_getElem?_inside B data _ j hpos hj
    · intro p hnp
      refine writeBytes_getElem?_outside B data _ p hpos ?_
      omega
    · exact get_mut_writeBytes B data _ _ hdata (by omega)
  · intro k k' hk hk' hne i i' p
    have hk2 : k < layout.props.length := by simpa using hk
    have hk2' : k' < layout.props.length := by simpa using hk'
    rintro ⟨hr1, hr2⟩
    simp only [List.getElem_map, BufferStride.inRange] at hr1 hr2
    have hfitk := hfit (layout.props[k]) (List.getElem_mem hk2)
    have hfitk' := hfit (layout.props[k']) (List.getElem_mem hk2')
    have hpw := List.pairwise_iff_getElem.mp hwf
    have hdisj : (layout.props[k]).absolute_offset + (layout.props[k]).prop.1.ubo_size
          ≤ (layout.props[k']).absolute_offset ∨
        (layout.props[k']).absolute_offset + (layout.props[k']).prop.1.ubo_size
          ≤ (layout.props[k]).absolute_offset := by
      rcases Nat.lt_or_ge k k' with hlt | hge
      · exact hpw k k' hk2 hk2' hlt
      · have hlt' : k' < k := by omega
        exact (hpw k' k hk2' hk2 hlt').symm
    exact write_ranges_disjoint layout.padded_size
      (layout.props[k]).absolute_offset (layout.props[k]).prop.1.ubo_size
      (layout.props[k']).absolute_offset (layout.props[k']).prop.1.ubo_size
      i i' p hfitk hfitk' hdisj hr1.1 hr1.2 hr2.1 hr2.2
  · intro len sizes strides2 hfs k k' hk hk' hne i i' p
    rw [from_sizes] at hfs
    split at hfs
    case isFalse => cases hfs
    case isTrue hcond2 =>
    injection hfs with hfs
    subst hfs
    have hlen2 : ∀ m, m < (stridesFromSizes sizes.sum (len / sizes.sum) 0 sizes).length →
        m < sizes.length := by
      intro m hm
      rwa [stridesFromSizes_length] at hm
    have hk2 : k < sizes.length := hlen2 k hk
    have hk2' : k' < sizes.length := hlen2 k' hk'
    have hchar : ∀ m (hm2 : m < sizes.length)
        (hm : m < (stridesFromSizes sizes.sum (len / sizes.sum) 0 sizes).length),
        (stridesFromSizes sizes.sum (len / sizes.sum) 0 sizes)[m]
          = ⟨(sizes.take m).sum, sizes.sum, len / sizes.sum, sizes[m]⟩ := by
      intro m hm2 hm
      have h0 := stridesFromSizes_getElem? sizes.sum (len / sizes.sum) 0 sizes m
      rw [List.getElem?_eq_getElem hm2, List.getElem?_eq_getElem hm] at h0
      simpa using h0
    rintro ⟨hr1, hr2⟩
    rw [hchar k hk2 hk] at hr1
    rw [hchar k' hk2' hk'] at hr2
    simp only [BufferStride.inRange] at hr1 hr2
    have hfitk : (sizes.take k).sum + sizes[k] ≤ sizes.sum := by
      rw [← sum_take_succ sizes k hk2]
      exact sum_take_le sizes (k + 1)
    have hfitk' : (sizes.take k').sum + sizes[k'] ≤ sizes.sum := by
      rw [← sum_take_succ sizes k' hk2']
      exact sum_take_le sizes (k' + 1)
    have hdisj : (sizes.take k).sum + sizes[k] ≤ (sizes.take k').sum ∨
        (sizes.take k').sum + sizes[k'] ≤ (sizes.take k).sum := by
      rcases Nat.lt_or_ge k k' with hlt | hge
      · left
        rw [← sum_take_succ sizes k hk2]
        exact sum_take_mono sizes hlt
      · right
        have hlt' : k' < k := by omega
        rw [← sum_take_succ sizes k' hk2']
        exact sum_take_mono sizes hlt'
    exact write_ranges_disjoint sizes.sum (sizes.take k).sum sizes[k]
      (sizes.take k').sum sizes[k'] i i' p hfitk hfitk' hdisj hr1.1 hr1.2 hr2.1 hr2.2

/-- Witness for C5 at a concrete input: a 48-byte buffer, the two-property
24-byte-stride layout, writing 16 bytes of value 7 through the first stride at
element index 1 and reading them back. -/
theorem c5_witness :
    (from_layout (List.replicate 48 0 : List Nat).length
        ⟨[⟨(ShaderInput.EncVec4, "a"), 0⟩, ⟨(ShaderInput.EncVec2, "b"), 16⟩], 24⟩ =
      some [⟨0, 24, 2, 16⟩, ⟨16, 24, 2, 8⟩]) ∧
    LayoutNonOverlap
      ⟨[⟨(ShaderInput.EncVec4, "a"), 0⟩, ⟨(ShaderInput.EncVec2, "b"), 16⟩], 24⟩ ∧
    LayoutFits
      ⟨[⟨(ShaderInput.EncVec4, "a"), 0⟩, ⟨(ShaderInput.EncVec2, "b"), 16⟩], 24⟩ ∧
    (([(⟨0, 24, 2, 16⟩ : BufferStride), ⟨16, 24, 2, 8⟩][0].get_mut
        ([(⟨0, 24, 2, 16⟩ : BufferStride), ⟨16, 24, 2, 8⟩][0].write_at
          (List.replicate 48 0) 1 (List.replicate 16 7)) 1)
      = List.replicate 16 7) :=
  ⟨by decide, by decide, by decide,
    ((c5_stride_roundtrip (List.replicate 48 0)
        ⟨[⟨(ShaderInput.EncVec4, "a"), 0⟩, ⟨(ShaderInput.EncVec2, "b"), 16⟩], 24⟩
        [⟨0, 24, 2, 16⟩, ⟨16, 24, 2, 8⟩] (by decide) (by decide) (by decide)).1
      0 (by decide) 1 (List.replicate 16 7) (by decide) (by decide)).2.2⟩

/-- C7 counterexample: a layout whose two `EncVec4` properties overlap
byte-wise (regions `[0, 16)` and `[8, 24)`) is not rejected by
`from_layout` — with a positive stride and a divisible buffer length the
construction succeeds, contradicting the claim that overlapping property
regions are rejected at construction time.  (The source marks the overlap
validation as a TODO and assumes well-formed layouts.) -/
theorem c7_counterexample_overlap_not_rejected :
    ¬ LayoutNonOverlap
        ⟨[⟨(ShaderInput.EncVec4, "a"), 0⟩, ⟨(ShaderInput.EncVec4, "b"), 8⟩], 16⟩ ∧
    from_layout 16
        ⟨[⟨(ShaderInput.EncVec4, "a"), 0⟩, ⟨(ShaderInput.EncVec4, "b"), 8⟩], 16⟩ =
      some [⟨0, 16, 1, 16⟩, ⟨8, 16, 1, 16⟩] := by
  constructor
  · intro h
    have := List.pairwise_cons.mp h
    have h2 := this.1 ⟨(ShaderInput.EncVec4, "b"), 8⟩ (by simp)
    simp [ShaderInput.ubo_size] at h2
  · rfl

/-- C7 (amended): `from_layout`, `from_sizes` and `from_ones` succeed exactly
when the stride is positive and divides the buffer length (the `assert!`
panics otherwise), and then every produced stride's `elem_count` is the buffer
length divided by the stride; overlap of property regions is *not* checked. -/
theorem c7_stride_preconditions :
    (∀ (len : Nat) (layout : BufferLayout),
      (from_layout len layout).isSome ↔
        (0 < layout.padded_size ∧ len % layout.padded_size = 0)) ∧
    (∀ (len : Nat) (layout : BufferLayout) (strides : List BufferStride),
      from_layout len layout = some strides →
        ∀ s ∈ strides, s.elem_count = len / layout.padded_size) ∧
    (∀ (len : Nat) (sizes : List Nat),
      (from_sizes len sizes).isSome ↔ (0 < sizes.sum ∧ len % sizes.sum = 0)) ∧
    (∀ (len : Nat) (sizes : List Nat) (strides : List BufferStride),
      from_sizes len sizes = some strides →
        ∀ s ∈ strides, s.elem_count = len / sizes.sum) ∧
    (∀ (len stride : Nat),
      (from_ones len stride).isSome ↔ (0 < stride ∧ len % stride = 0)) ∧
    (∀ (len stride : Nat) (strides : List BufferStride),
      from_ones len stride = some strides →
        ∀ s ∈ strides, s.elem_count = len / stride) := by
  refine ⟨?_, ?_, ?_, ?_, ?_, ?_⟩
  · intro len layout
    rw [from_layout]
    split
    · rename_i h
      simpa using h
    · rename_i h
      simpa using h
  · intro len layout strides hfl s hs
    rw [from_layout] at hfl
    split at hfl
    · cases hfl
      obtain ⟨lp, _, rfl⟩ := List.mem_map.mp hs
      rfl
    · cases hfl
  · intro len sizes
    rw [from_sizes]
    split
    · rename_i h
      simpa using h
    · rename_i h
      simpa using h
  · intro len sizes strides hfs s hs
    rw [from_sizes] at hfs
    split at hfs
    · cases hfs
      exact stridesFromSizes_elem_count _ _ _ _ s hs
    · cases hfs
  · intro len stride
    rw [from_ones]
    split
    · rename_i h
      simpa using h
    · rename_i h
      simpa using h
  · intro len stride strides hfo s hs
    rw [from_ones] at hfo
    split at hfo
    · cases hfo
      obtain ⟨off, _, rfl⟩ := List.mem_map.mp hs
      rfl
    · cases hfo

/-- Witness for C7 at a concrete input: `from_layout` over a 48-byte buffer
and a well-formed 24-byte-stride layout. -/
theorem c7_witness :
    from_layout 48 ⟨[⟨(ShaderInput.EncVec4, "a"), 0⟩, ⟨(ShaderInput.EncVec2, "b"), 16⟩], 24⟩
      = some [⟨0, 24, 2, 16⟩, ⟨16, 24, 2, 8⟩] ∧
    (∀ s ∈ [(⟨0, 24, 2, 16⟩ : BufferStride), ⟨16, 24, 2, 8⟩], s.elem_count = 48 / 24) ∧
    ((from_layout 48
        ⟨[⟨(ShaderInput.EncVec4, "a"), 0⟩, ⟨(ShaderInput.EncVec2, "b"), 16⟩], 24⟩).isSome ↔
      (0 < 24 ∧ 48 % 24 = 0)) :=
  ⟨by decide,
    c7_stride_preconditions.2.1 48
      ⟨[⟨(ShaderInput.EncVec4, "a"), 0⟩, ⟨(ShaderInput.EncVec2, "b"), 16⟩], 24⟩
      [⟨0, 24, 2, 16⟩, ⟨16, 24, 2, 8⟩] (by decide),
    c7_stride_preconditions.1 48
      ⟨[⟨(ShaderInput.EncVec4, "a"), 0⟩, ⟨(ShaderInput.EncVec2, "b"), 16⟩], 24⟩⟩

/-! ### Helper lemmas for `instance_writes` -/

theorem getD_set_self_nat (l : List Nat) (i v : Nat) (h : i < l.length) :
    (l.set i v).getD i 0 = v := by
  rw [List.getD_eq_getElem?_getD, List.getElem?_set_self h]
  rfl

theorem getD_set_ne_nat (l : List Nat) (i j v : Nat) (h : i ≠ j) :
    (l.set i v).getD j 0 = l.getD j 0 := by
  rw [List.getD_eq_getElem?_getD, List.getD_eq_getElem?_getD, List.getElem?_set_ne h]

theorem foldl_instanceWriteStep_out (l : List (Nat × Nat)) :
    ∀ (offs : List Nat) (out : List OpEncode),
      (l.foldl instanceWriteStep (offs, out)).2
        = out ++ (l.foldl instanceWriteStep (offs, [])).2 := by
  induction l with
  | nil =>
    intro offs out
    simp
  | cons x xs ih =>
    intro offs out
    simp only [List.foldl_cons, instanceWriteStep, List.nil_append]
    rw [ih (offs.set x.1 (offs.getD x.1 0 + 1))
        (out ++ [OpEncode.mk x.2 (offs.getD x.1 0)]),
      ih (offs.set x.1 (offs.getD x.1 0 + 1)) [OpEncode.mk x.2 (offs.getD x.1 0)]]
    simp

theorem instanceWrites_map_entity (l : List (Nat × Nat)) :
    ∀ (offs : List Nat),
      ((l.foldl instanceWriteStep (offs, [])).2).map (fun o => o.entity_id)
        = l.map (fun x => x.2) := by
  induction l with
  | nil =>
    intro offs
    rfl
  | cons x xs ih =>
    intro offs
    simp only [List.foldl_cons, instanceWriteStep, List.nil_append]
    rw [foldl_instanceWriteStep_out]
    simp [ih]

theorem instanceWrites_filter_batch (l : List (Nat × Nat)) :
    ∀ (offs : List Nat), (∀ x ∈ l, x.1 < offs.length) → ∀ b, b < offs.length →
      ((((l.foldl instanceWriteStep (offs, [])).2).zip (l.map (fun x => x.1))).filter
          (fun x => x.2 = b)).map (fun x => x.1.write_index)
        = List.range' (offs.getD b 0) ((l.map (fun x => x.1)).count b) := by
  induction l with
  | nil =>
    intro offs _ b hb
    rfl
  | cons x xs ih =>
    intro offs hx b hb
    simp only [List.foldl_cons, instanceWriteStep, List.nil_append, List.map_cons]
    rw [foldl_instanceWriteStep_out]
    simp only [List.singleton_append, List.zip_cons_cons]
    have hlenset : (offs.set x.1 (offs.getD x.1 0 + 1)).length = offs.length := by
      simp
    have hx' : ∀ y ∈ xs, y.1 < (offs.set x.1 (offs.getD x.1 0 + 1)).length := by
      intro y hy
      rw [hlenset]
      exact hx y (List.mem_cons_of_mem _ hy)
    have ihx := ih (offs.set x.1 (offs.getD x.1 0 + 1)) hx' b (by rw [hlenset]; exact hb)
    by_cases hxb : x.1 = b
    · subst hxb
      rw [List.filter_cons_of_pos (by simp)]
      rw [List.map_cons, ihx, getD_set_self_nat offs x.1 _ (hx x (List.mem_cons_self x xs))]
      rw [List.count_cons_self]
      rw [List.range'_succ]
    · rw [List.filter_cons_of_neg (by simp [hxb])]
      rw [ihx, getD_set_ne_nat offs x.1 b _ hxb]
      rw [List.count_cons_of_ne (Ne.symm hxb)]

theorem computeBatchOffsets_aux (counts : List Nat) :
    ∀ (acc : List Nat) (total : Nat),
      (counts.foldl (fun (a : List Nat × Nat) c => (a.1 ++ [a.2], a.2 + c)) (acc, total)).1
        = acc ++ (List.range counts.length).map (fun b => total + (counts.take b).sum) := by
  induction counts with
  | nil =>
    intro acc total
    simp
  | cons c cs ih =>
    intro acc total
    simp only [List.foldl_cons]
    rw [ih (acc ++ [total]) (total + c)]
    rw [List.length_cons, List.range_succ_eq_map]
    simp only [List.map_cons, List.map_map, List.take_zero, List.sum_nil, Nat.add_zero,
      List.append_assoc, List.singleton_append]
    congr 1
    congr 1
    apply List.map_congr_left
    intro b _
    simp only [Function.comp_apply, List.take_succ_cons, List.sum_cons]
    omega

theorem computeBatchOffsets_getD (counts : List Nat) (b : Nat) (hb : b < counts.length) :
    (computeBatchOffsets counts).getD b 0 = (counts.take b).sum := by
  rw [computeBatchOffsets, computeBatchOffsets_aux]
  simp only [List.nil_append, Nat.zero_add]
  rw [List.getD_eq_getElem?_getD]
  rw [List.getElem?_eq_getElem (by simpa using hb)]
  simp

/-- C4: `instance_writes` (renderable.rs:454-482).  Given `batch_per_entity`
aligned with the entity iteration order and per-batch instance counts: every
emitted op carries its entity; the write indices of the entities of batch `b`,
in order, are exactly `batch_offsets[b], batch_offsets[b]+1, …` — the j-th
entity of batch `b` receives `batch_offsets[b] + j`, so batch `b` occupies
exactly `[batch_offsets[b], batch_offsets[b] + count(b))`; `batch_offsets` is
the prefix sum of the instance counts in batch-id order; and for
`batch_per_entity = [0,1,0]` with `batch_offsets = [0,2]` the emitted write
indices are `(0, 2, 1)`. -/
theorem c4_instance_writes (counts bpe es : List Nat)
    (hlen : bpe.length = es.length)
    (hb : ∀ b ∈ bpe, b < counts.length) :
    ((instance_writes counts bpe es).map (fun o => o.entity_id) = es) ∧
    (∀ b, b < counts.length →
      (((instance_writes counts bpe es).zip bpe).filter
          (fun x => x.2 = b)).map (fun x => x.1.write_index)
        = List.range' ((computeBatchOffsets counts).getD b 0) (bpe.count b)) ∧
    (∀ b, b < counts.length →
      (computeBatchOffsets counts).getD b 0 = (counts.take b).sum) ∧
    (∀ b, b + 1 < counts.length →
      (computeBatchOffsets counts).getD (b + 1) 0
        = (computeBatchOffsets counts).getD b 0 + counts.getD b 0) ∧
    ((instance_writes [2, 1] [0, 1, 0] [1, 2, 3]).map (fun o => o.write_index)
      = [0, 2, 1]) := by
  have hmapfst : (bpe.zip es).map (fun x => x.1) = bpe :=
    List.map_fst_zip bpe es (le_of_eq hlen)
  have hmapsnd : (bpe.zip es).map (fun x => x.2) = es :=
    List.map_snd_zip bpe es (le_of_eq hlen.symm)
  have hoffslen : (computeBatchOffsets counts).length = counts.length := by
    rw [computeBatchOffsets, computeBatchOffsets_aux]
    simp
  refine ⟨?_, ?_, ?_, ?_, ?_⟩
  · rw [instance_writes, instanceWrites_map_entity, hmapsnd]
  · intro b hbc
    have hx : ∀ x ∈ bpe.zip es, x.1 < (computeBatchOffsets counts).length := by
      intro x hxmem
      rw [hoffslen]
      exact hb x.1 (by rw [← hmapfst]; exact List.mem_map_of_mem _ hxmem)
    have h := instanceWrites_filter_batch (bpe.zip es) (computeBatchOffsets counts)
      hx b (by rw [hoffslen]; exact hbc)
    rw [hmapfst] at h
    exact h
  · intro b hbc
    exact computeBatchOffsets_getD counts b hbc
  · intro b hbc
    rw [computeBatchOffsets_getD counts (b + 1) hbc,
      computeBatchOffsets_getD counts b (by omega)]
    rw [sum_take_succ counts b (by omega)]
    rw [List.getD_eq_getElem?_getD, List.getElem?_eq_getElem (by omega)]
    rfl
  · rfl

/-- Witness for C4 at the spec's concrete Scenario C: three entities, batches
`[0, 1, 0]`, counts `[2, 1]`. -/
theorem c4_witness :
    (([0, 1, 0] : List Nat).length = ([1, 2, 3] : List Nat).length ∧
      ∀ b ∈ ([0, 1, 0] : List Nat), b < ([2, 1] : List Nat).length) ∧
    ((instance_writes [2, 1] [0, 1, 0] [1, 2, 3]).map (fun o => o.entity_id)
      = [1, 2, 3]) ∧
    ((instance_writes [2, 1] [0, 1, 0] [1, 2, 3]).map (fun o => o.write_index)
      = [0, 2, 1]) :=
  ⟨⟨by decide, by decide⟩,
    (c4_instance_writes [2, 1] [0, 1, 0] [1, 2, 3] (by decide) (by decide)).1,
    (c4_instance_writes [2, 1] [0, 1, 0] [1, 2, 3] (by decide) (by decide)).2.2.2.2⟩

/-! ### Helper lemmas for batch clustering -/

theorem batchRounds_eq_foldl (key : Nat → List Nat) (entities : List Nat)
    (st : BatchState) :
    batchRounds key st entities = entities.foldl (batchStep key) st := by
  rw [batchRounds]
  split
  · rename_i h
    have hnil : entities = [] := by simpa using h
    subst hnil
    rfl
  · rename_i h
    have hne : entities ≠ [] := by
      intro hnil
      rw [hnil] at h
      simp at h
    have hpos : 0 < entities.length := List.length_pos.mpr hne
    rw [batchRounds_eq_foldl key (entities.drop BATCH_ROUND_SIZE) _]
    rw [← List.foldl_append, List.take_append_drop]
termination_by entities.length
decreasing_by
  simp only [List.length_drop]
  have h1024 : 0 < BATCH_ROUND_SIZE := by decide
  omega

theorem mem_foldl_dk (rows : List (List Nat)) :
    ∀ (acc : List (List Nat)) (x : List Nat),
      x ∈ rows.foldl (fun acc k => if k ∈ acc then acc else acc ++ [k]) acc ↔
        x ∈ acc ∨ x ∈ rows := by
  induction rows with
  | nil =>
    intro acc x
    simp
  | cons r rows ih =>
    intro acc x
    simp only [List.foldl_cons]
    rw [ih]
    by_cases hr : r ∈ acc
    · rw [if_pos hr]
      simp only [List.mem_cons]
      constructor
      · rintro (h | h)
        · exact Or.inl h
        · exact Or.inr (Or.inr h)
      · rintro (h | h | h)
        · exact Or.inl h
        · exact Or.inl (h ▸ hr)
        · exact Or.inr h
    · rw [if_neg hr]
      simp only [List.mem_append, List.mem_singleton, List.mem_cons]
      tauto

theorem mem_distinctKeys (rows : List (List Nat)) (x : List Nat) :
    x ∈ distinctKeys rows ↔ x ∈ rows := by
  rw [distinctKeys, mem_foldl_dk]
  simp

theorem nodup_foldl_dk (rows : List (List Nat)) :
    ∀ (acc : List (List Nat)), acc.Nodup →
      (rows.foldl (fun acc k => if k ∈ acc then acc else acc ++ [k]) acc).Nodup := by
  induction rows with
  | nil =>
    intro acc hacc
    simpa using hacc
  | cons r rows ih =>
    intro acc hacc
    simp only [List.foldl_cons]
    apply ih
    by_cases hr : r ∈ acc
    · rwa [if_pos hr]
    · rw [if_neg hr]
      simp [List.nodup_append, hacc, hr]

theorem nodup_distinctKeys (rows : List (List Nat)) : (distinctKeys rows).Nodup :=
  nodup_foldl_dk rows [] List.nodup_nil

theorem distinctKeys_snoc (rows : List (List Nat)) (k : List Nat) :
    distinctKeys (rows ++ [k]) =
      if k ∈ distinctKeys rows then distinctKeys rows else distinctKeys rows ++ [k] := by
  rw [distinctKeys, List.foldl_append]
  rfl

theorem idxOfKey_append_of_mem {k : List Nat} {l1 : List (List Nat)}
    (l2 : List (List Nat)) (h : k ∈ l1) :
    idxOfKey k (l1 ++ l2) = idxOfKey k l1 := by
  induction l1 with
  | nil => simp at h
  | cons r rest ih =>
    rw [List.cons_append, idxOfKey, idxOfKey]
    by_cases hr : r = k
    · rw [if_pos hr, if_pos hr]
    · rw [if_neg hr, if_neg hr, ih (by
        rcases List.mem_cons.mp h with h2 | h2
        · exact absurd h2.symm hr
        · exact h2)]

theorem idxOfKey_append_of_not_mem {k : List Nat} {l1 : List (List Nat)}
    (l2 : List (List Nat)) (h : k ∉ l1) :
    idxOfKey k (l1 ++ l2) = l1.length + idxOfKey k l2 := by
  induction l1 with
  | nil => simp [idxOfKey]
  | cons r rest ih =>
    rw [List.cons_append, idxOfKey]
    have hr : ¬ r = k := fun hrk => h (hrk ▸ List.mem_cons_self r rest)
    rw [if_neg hr, ih (fun hmem => h (List.mem_cons_of_mem r hmem))]
    simp only [List.length_cons]
    omega

theorem idxOfKey_lt_length {k : List Nat} {l : List (List Nat)} (h : k ∈ l) :
    idxOfKey k l < l.length := by
  induction l with
  | nil => simp at h
  | cons r rest ih =>
    rw [idxOfKey]
    by_cases hr : r = k
    · rw [if_pos hr]
      simp
    · rw [if_neg hr]
      have : k ∈ rest := by
        rcases List.mem_cons.mp h with h2 | h2
        · exact absurd h2.symm hr
        · exact h2
      simpa using ih this

theorem getElem?_idxOfKey {k : List Nat} {l : List (List Nat)} (h : k ∈ l) :
    l[idxOfKey k l]? = some k := by
  induction l with
  | nil => simp at h
  | cons r rest ih =>
    rw [idxOfKey]
    by_cases hr : r = k
    · rw [if_pos hr]
      simp [hr]
    · rw [if_neg hr]
      have : k ∈ rest := by
        rcases List.mem_cons.mp h with h2 | h2
        · exact absurd h2.symm hr
        · exact h2
      simpa using ih this

theorem idxOfKey_inj {k k' : List Nat} {l : List (List Nat)}
    (hk : k ∈ l) (hk' : k' ∈ l) (h : idxOfKey k l = idxOfKey k' l) : k = k' := by
  have h1 := getElem?_idxOfKey hk
  have h2 := getElem?_idxOfKey hk'
  rw [h] at h1
  rw [h1] at h2
  exact Option.some.inj h2

theorem lookupKey_eq (m : List (List Nat × BatchInfo)) (k : List Nat) :
    lookupKey m k = (m[idxOfKey k (m.map Prod.fst)]?).map (fun kv => kv.2) := by
  induction m with
  | nil => rfl
  | cons kv rest ih =>
    rw [lookupKey, List.map_cons, idxOfKey]
    by_cases hk : kv.1 = k
    · rw [if_pos hk, if_pos hk]
      simp
    · rw [if_neg hk, if_neg hk, ih]
      rw [List.getElem?_cons_succ]

theorem lookupKey_eq_none (m : List (List Nat × BatchInfo)) (k : List Nat)
    (h : k ∉ m.map Prod.fst) : lookupKey m k = none := by
  induction m with
  | nil => rfl
  | cons kv rest ih =>
    rw [lookupKey]
    have hk : ¬ kv.1 = k := by
      intro hkk
      exact h (by rw [List.map_cons, hkk]; exact List.mem_cons_self _ _)
    rw [if_neg hk]
    exact ih (fun hmem => h (by rw [List.map_cons]; exact List.mem_cons_of_mem _ hmem))

theorem bumpCount_map_fst (m : List (List Nat × BatchInfo)) (k : List Nat) :
    (bumpCount m k).map Prod.fst = m.map Prod.fst := by
  induction m with
  | nil => rfl
  | cons kv rest ih =>
    rw [bumpCount]
    split
    · rfl
    · simp [ih]

theorem bumpCount_map_batch_id (m : List (List Nat × BatchInfo)) (k : List Nat) :
    (bumpCount m k).map (fun kv => kv.2.batch_id)
      = m.map (fun kv => kv.2.batch_id) := by
  induction m with
  | nil => rfl
  | cons kv rest ih =>
    rw [bumpCount]
    split
    · rfl
    · simp [ih]

theorem batchStep_eq_hit (key : Nat → List Nat) (st : BatchState) (e : Nat)
    (info : BatchInfo) (h : lookupKey st.batches_by_key (key e) = some info) :
    batchStep key st e =
      { st with
        batch_per_entity := st.batch_per_entity ++ [info.batch_id]
        batches_by_key := bumpCount st.batches_by_key (key e) } := by
  rw [batchStep, h]

theorem batchStep_eq_miss (key : Nat → List Nat) (st : BatchState) (e : Nat)
    (h : lookupKey st.batches_by_key (key e) = none) :
    batchStep key st e =
      ⟨st.batches_by_key ++ [(key e, ⟨1, st.next_batch_id⟩)],
        (st.next_batch_id + 1) % U16_MOD,
        st.batch_per_entity ++ [st.next_batch_id],
        st.encoder_batch_writes ++ [⟨e, st.next_batch_id⟩]⟩ := by
  rw [batchStep, h]

/-- Characterization of the batch-collection fold under the hypothesis that
fewer than `U16_MOD` distinct key rows occur (so the `u16` counter never
wraps): the map's keys in insertion order are the distinct key rows, batch
ids are assigned 0, 1, 2, … in that order, `batch_per_entity` maps each row
to its first-occurrence index, and `encoder_batch_writes` holds one op per
distinct key whose `write_index` is the new id. -/
theorem collect_foldl_spec (key : Nat → List Nat) (es : List Nat)
    (hbound : (distinctKeys (es.map key)).length < U16_MOD) :
    ((es.foldl (batchStep key) ⟨[], 0, [], []⟩).batches_by_key.map Prod.fst
        = distinctKeys (es.map key)) ∧
    ((es.foldl (batchStep key) ⟨[], 0, [], []⟩).batches_by_key.map
        (fun kv => kv.2.batch_id) = List.range (distinctKeys (es.map key)).length) ∧
    ((es.foldl (batchStep key) ⟨[], 0, [], []⟩).next_batch_id
        = (distinctKeys (es.map key)).length) ∧
    ((es.foldl (batchStep key) ⟨[], 0, [], []⟩).batch_per_entity
        = (es.map key).map (fun k => idxOfKey k (distinctKeys (es.map key)))) ∧
    ((es.foldl (batchStep key) ⟨[], 0, [], []⟩).encoder_batch_writes.map
        (fun w => w.write_index) = List.range (distinctKeys (es.map key)).length) ∧
    ((es.foldl (batchStep key) ⟨[], 0, [], []⟩).encoder_batch_writes.map
        (fun w => key w.entity_id) = distinctKeys (es.map key)) := by
  revert hbound
  induction es using List.reverseRecOn with
  | nil => exact fun _ => ⟨rfl, rfl, rfl, rfl, rfl, rfl⟩
  | append_singleton es e ih =>
    intro hbound
    have hfold : (es ++ [e]).foldl (batchStep key) (⟨[], 0, [], []⟩ : BatchState)
        = batchStep key (es.foldl (batchStep key) ⟨[], 0, [], []⟩) e := by
      rw [List.foldl_append]
      rfl
    have hrows : (es ++ [e]).map key = es.map key ++ [key e] := by
      rw [List.map_append]
      rfl
    have hdk := distinctKeys_snoc (es.map key) (key e)
    have hble : (distinctKeys (es.map key)).length < U16_MOD := by
      rw [hrows, hdk] at hbound
      split at hbound
      · exact hbound
      · simp only [List.length_append, List.length_cons, List.length_nil] at hbound
        omega
    obtain ⟨ih1, ih2, ih3, ih4, ih5, ih6⟩ := ih hble
    by_cases hmem : key e ∈ distinctKeys (es.map key)
    · have hdk' : distinctKeys (es.map key ++ [key e]) = distinctKeys (es.map key) := by
        rw [hdk, if_pos hmem]
      have hmlen : (es.foldl (batchStep key) ⟨[], 0, [], []⟩).batches_by_key.length
          = (distinctKeys (es.map key)).length := by
        rw [← List.length_map _ Prod.fst, ih1]
      have hidx_n : idxOfKey (key e) (distinctKeys (es.map key))
          < (distinctKeys (es.map key)).length := idxOfKey_lt_length hmem
      have hidx_m : idxOfKey (key e) (distinctKeys (es.map key))
          < (es.foldl (batchStep key) ⟨[], 0, [], []⟩).batches_by_key.length := by
        omega
      have hlookup : lookupKey
          (es.foldl (batchStep key) ⟨[], 0, [], []⟩).batches_by_key (key e)
          = some ((es.foldl (batchStep key)
              ⟨[], 0, [], []⟩).batches_by_key[idxOfKey (key e)
                (distinctKeys (es.map key))]).2 := by
        rw [lookupKey_eq, ih1, List.getElem?_eq_getElem hidx_m]
        rfl
      have hbid : ((es.foldl (batchStep key)
          ⟨[], 0, [], []⟩).batches_by_key[idxOfKey (key e)
            (distinctKeys (es.map key))]).2.batch_id
          = idxOfKey (key e) (distinctKeys (es.map key)) := by
        have hcongr := congrArg
          (fun l => l[idxOfKey (key e) (distinctKeys (es.map key))]?) ih2
        simp only [List.getElem?_map] at hcongr
        rw [List.getElem?_eq_getElem hidx_m, List.getElem?_range hidx_n] at hcongr
        exact Option.some.inj hcongr
      rw [hfold, batchStep_eq_hit key _ e _ hlookup]
      refine ⟨?_, ?_, ?_, ?_, ?_, ?_⟩
      · simp only [hrows, hdk', bumpCount_map_fst, ih1]
      · simp only [hrows, hdk', bumpCount_map_batch_id, ih2]
      · simp only [hrows, hdk', ih3]
      · simp only [hrows, hdk', List.map_append, List.map_cons, List.map_nil, ← ih4, hbid]
      · simp only [hrows, hdk', ih5]
      · simp only [hrows, hdk', ih6]
    · have hdk' : distinctKeys (es.map key ++ [key e])
          = distinctKeys (es.map key) ++ [key e] := by
        rw [hdk, if_neg hmem]
      have hsucc : (distinctKeys (es.map key)).length + 1 < 65536 := by
        rw [hrows, hdk'] at hbound
        simp only [List.length_append, List.length_cons, List.length_nil,
          U16_MOD] at hbound
        omega
      have hlookup : lookupKey
          (es.foldl (batchStep key) ⟨[], 0, [], []⟩).batches_by_key (key e) = none :=
        lookupKey_eq_none _ _ (by rw [ih1]; exact hmem)
      rw [hfold, batchStep_eq_miss key _ e hlookup]
      refine ⟨?_, ?_, ?_, ?_, ?_, ?_⟩
      · simp only [hrows, hdk', List.map_append, ih1, List.map_cons, List.map_nil]
      · simp only [hrows, hdk', List.map_append, ih2, ih3, List.map_cons, List.map_nil,
          List.length_append, List.length_cons, List.length_nil]
        rw [← List.range_succ]
      · simp only [hrows, hdk', ih3, List.length_append, List.length_cons,
          List.length_nil, U16_MOD]
        omega
      · have hold : (es.map key).map
            (fun k => idxOfKey k (distinctKeys (es.map key) ++ [key e]))
            = (es.map key).map (fun k => idxOfKey k (distinctKeys (es.map key))) := by
          apply List.map_congr_left
          intro k hk
          exact idxOfKey_append_of_mem _ ((mem_distinctKeys _ _).mpr hk)
        have hnew : idxOfKey (key e) (distinctKeys (es.map key) ++ [key e])
            = (distinctKeys (es.map key)).length := by
          rw [idxOfKey_append_of_not_mem _ hmem, idxOfKey, if_pos rfl]
          omega
        simp only [hrows, hdk', List.map_append, List.map_cons, List.map_nil,
          hold, ← ih4, hnew, ih3]
      · simp only [hrows, hdk', List.map_append, ih5, ih3, List.map_cons, List.map_nil,
          List.length_append, List.length_cons, List.length_nil]
        rw [← List.range_succ]
      · simp only [hrows, hdk', List.map_append, ih6, List.map_cons, List.map_nil]

/-- C3: the batch-clustering pass of `PipelineEncodingSystem::run`
(renderable.rs:532-593), across all rounds, under the hypothesis that fewer
than `U16_MOD = 2^16` distinct key rows occur — the source's `next_batch_id`
is a `u16`, so beyond that bound the counter wraps (release) or panics
(debug) and ids collide.  Two entities receive the same `batch_per_entity`
entry iff their concatenated batch-key byte rows are equal; entries are the
first-occurrence indices of the rows (ids assigned 0, 1, 2, … in
first-occurrence order); and `encoder_batch_writes` holds exactly one
`OpEncode` per distinct key, the one for the b-th distinct key carrying
`write_index = b`. -/
theorem c3_batch_clustering (key : Nat → List Nat) (es : List Nat)
    (hbound : (distinctKeys (es.map key)).length < U16_MOD) :
    ((collectBatches key es).batch_per_entity
        = (es.map key).map (fun k => idxOfKey k (distinctKeys (es.map key)))) ∧
    (∀ p q, p < es.length → q < es.length →
      ((collectBatches key es).batch_per_entity.getD p 0
          = (collectBatches key es).batch_per_entity.getD q 0 ↔
        key (es.getD p 0) = key (es.getD q 0))) ∧
    ((collectBatches key es).encoder_batch_writes.map (fun w => w.write_index)
        = List.range (distinctKeys (es.map key)).length) ∧
    ((collectBatches key es).encoder_batch_writes.map (fun w => key w.entity_id)
        = distinctKeys (es.map key)) := by
  have hc : collectBatches key es = es.foldl (batchStep key) ⟨[], 0, [], []⟩ :=
    batchRounds_eq_foldl key es _
  obtain ⟨h1, h2, h3, h4, h5, h6⟩ := collect_foldl_spec key es hbound
  refine ⟨by rw [hc]; exact h4, ?_, by rw [hc]; exact h5, by rw [hc]; exact h6⟩
  intro p q hp hq
  rw [hc, h4]
  have hplen : p < (es.map key).length := by simpa using hp
  have hqlen : q < (es.map key).length := by simpa using hq
  have hgp : (((es.map key)).map
      (fun k => idxOfKey k (distinctKeys (es.map key)))).getD p 0
      = idxOfKey ((es.map key)[p]) (distinctKeys (es.map key)) := by
    rw [List.getD_eq_getElem?_getD, List.getElem?_eq_getElem (by simpa using hplen)]
    simp
  have hgq : (((es.map key)).map
      (fun k => idxOfKey k (distinctKeys (es.map key)))).getD q 0
      = idxOfKey ((es.map key)[q]) (distinctKeys (es.map key)) := by
    rw [List.getD_eq_getElem?_getD, List.getElem?_eq_getElem (by simpa using hqlen)]
    simp
  rw [hgp, hgq]
  have hmp : (es.map key)[p] ∈ distinctKeys (es.map key) :=
    (mem_distinctKeys _ _).mpr (List.getElem_mem hplen)
  have hmq : (es.map key)[q] ∈ distinctKeys (es.map key) :=
    (mem_distinctKeys _ _).mpr (List.getElem_mem hqlen)
  have hkp : (es.map key)[p] = key (es.getD p 0) := by
    rw [List.getElem_map, List.getD_eq_getElem?_getD, List.getElem?_eq_getElem hp]
    rfl
  have hkq : (es.map key)[q] = key (es.getD q 0) := by
    rw [List.getElem_map, List.getD_eq_getElem?_getD, List.getElem?_eq_getElem hq]
    rfl
  constructor
  · intro hid
    rw [← hkp, ← hkq]
    exact idxOfKey_inj hmp hmq hid
  · intro hkey
    have : (es.map key)[p] = (es.map key)[q] := by rw [hkp, hkq, hkey]
    rw [this]

/-- Witness for C3 at the spec's Scenario C: entities `[1, 2, 3]` with key
rows `[7]`, `[9]`, `[7]` — two distinct keys, far below the `u16` bound, and
entities 1 and 3 share a batch id iff their rows agree. -/
theorem c3_witness :
    ((distinctKeys (([1, 2, 3] : List Nat).map
        (fun n => if n = 2 then [9] else [7]))).length < U16_MOD ∧
      0 < ([1, 2, 3] : List Nat).length ∧ 2 < ([1, 2, 3] : List Nat).length) ∧
    ((collectBatches (fun n => if n = 2 then [9] else [7]) [1, 2, 3]).batch_per_entity.getD 0 0
        = (collectBatches (fun n => if n = 2 then [9] else [7])
            [1, 2, 3]).batch_per_entity.getD 2 0 ↔
      (fun n => if n = 2 then [9] else ([7] : List Nat)) (([1, 2, 3] : List Nat).getD 0 0)
        = (fun n => if n = 2 then [9] else [7]) (([1, 2, 3] : List Nat).getD 2 0)) :=
  ⟨⟨by decide, by decide, by decide⟩,
    (c3_batch_clustering (fun n => if n = 2 then [9] else [7]) [1, 2, 3]
        (by decide)).2.1 0 2 (by decide) (by decide)⟩

/-- C10: iterating a `VecBitSet` (bitset.rs) over the single bitset `{0}`.
`contains 0` is `true` (0 is in the intersection), but the layer functions
fold with initial accumulator `0`, so `vecLayer3 = 0 &&& 1 = 0` and the
iterator visits nothing — contradicting the claim that iteration visits
exactly the ids satisfying `contains`. -/
theorem c10_vecbitset_iteration_misses_members :
    vecContains [singletonZeroBitSet] 0 = true ∧
    vecLayer3 [singletonZeroBitSet] = 0 ∧
    vecIterVisits [singletonZeroBitSet] 0 = false := by
  decide

end AmethystEncoding
